import Mathlib

/- Shallow embedding of src/app/main.py (Miracle-Matcher).
   The Team and League records, the league partitioner
   (divide_into_leagues) and the backtracking match scheduler
   (generate_matches_for_league / _find_matches_recursive) are translated
   directly from the Python source.  Python's runtime randomness
   (random.sample, random.shuffle, random.choice) is modelled by explicit
   parameters: a pre-shuffled list together with a permutation hypothesis
   in the theorems, and a numeric choice oracle. -/

namespace MiracleMatcher

/-- Team record: mirrors the Python dataclass Team (id, name, region).
Python integers are unbounded, hence Int for the id. -/
structure Team where
  id : Int
  name : String
  region : String
  deriving DecidableEq

/-- League record: mirrors the Python dataclass League
(name, teams, matches).  The matches attribute is called matchList here
because matches is a reserved word in Lean. -/
structure League where
  name : String
  teams : List Team
  matchList : List (Team × Team)
  deriving DecidableEq

/-- Canonicalisation tuple(sorted((a, b), key=lambda t: t.id)) of a
two-element tuple: Python's sort is stable, so when the ids tie the pair
keeps its original order. -/
def sortPair (a b : Team) : Team × Team :=
  if a.id ≤ b.id then (a, b) else (b, a)

/-- Candidate generation inside generate_matches_for_league: the double
loop for i in range(n), for j in range(i+1, n) pairs every element with
every later element; a pair is kept when the regions differ and is
canonicalised with sortPair. -/
def possible_pairs : List Team → List (Team × Team)
  | [] => []
  | t :: rest =>
    (rest.filterMap fun u => if t.region ≠ u.region then some (sortPair t u) else none)
      ++ possible_pairs rest

/-- Increment of one key of the match_counts dictionary
(new_counts[k] += 1).  The dictionary is modelled as a total function
from ids; only keys belonging to league teams are ever read. -/
def bumpCount (c : Int → Int) (k : Int) : Int → Int :=
  fun x => if x = k then c x + 1 else c x

/-- Goal test all(count == num_matches_per_team for count in
match_counts.values()); the key set of the dictionary is the list of team
ids of the league, so the values are read off at those keys. -/
def goalMet (keys : List Int) (c : Int → Int) (target : Int) : Bool :=
  keys.all fun k => c k == target

/-- The nested helper _find_matches_recursive of
generate_matches_for_league.  Order of tests as in the source: goal test
first, then exhaustion of the candidate list, then the include branch
(guarded by both running counts being strictly below the target), then
the exclude branch.  Success returns the committed match list (the
Python code assigns it to league.matches and returns True). -/
def find_matches_recursive (pairs : List (Team × Team)) (target : Int) (keys : List Int)
    (ms : List (Team × Team)) (c : Int → Int) (idx : Nat) :
    Option (List (Team × Team)) :=
  if goalMet keys c target then
    some ms
  else if h : idx < pairs.length then
    match (if c (pairs.get ⟨idx, h⟩).1.id < target ∧ c (pairs.get ⟨idx, h⟩).2.id < target then
        find_matches_recursive pairs target keys (ms ++ [pairs.get ⟨idx, h⟩])
          (bumpCount (bumpCount c (pairs.get ⟨idx, h⟩).1.id) (pairs.get ⟨idx, h⟩).2.id)
          (idx + 1)
      else none) with
    | some r => some r
    | none => find_matches_recursive pairs target keys ms c (idx + 1)
  else
    none
termination_by pairs.length - idx
decreasing_by all_goals omega

/-- Fuel-indexed variant of find_matches_recursive, structurally
recursive on the fuel.  It agrees with find_matches_recursive whenever
the fuel is at least pairs.length - idx, which makes the bound on the
recursion depth of the search explicit. -/
def find_matches_fuel (pairs : List (Team × Team)) (target : Int) (keys : List Int) :
    Nat → List (Team × Team) → (Int → Int) → Nat → Option (List (Team × Team))
  | 0, ms, c, _ => if goalMet keys c target then some ms else none
  | fuel + 1, ms, c, idx =>
    if goalMet keys c target then
      some ms
    else if h : idx < pairs.length then
      match (if c (pairs.get ⟨idx, h⟩).1.id < target ∧ c (pairs.get ⟨idx, h⟩).2.id < target then
          find_matches_fuel pairs target keys fuel (ms ++ [pairs.get ⟨idx, h⟩])
            (bumpCount (bumpCount c (pairs.get ⟨idx, h⟩).1.id) (pairs.get ⟨idx, h⟩).2.id)
            (idx + 1)
        else none) with
      | some r => some r
      | none => find_matches_fuel pairs target keys fuel ms c (idx + 1)
    else
      none

/-- Keys of the initial match_counts dictionary
(team.id for team in teams).  Reading the dictionary values at every
element of this list is extensionally the same as reading each distinct
key once, because the goal test is a conjunction. -/
def countKeys (teams : List Team) : List Int :=
  teams.map fun t => t.id

/-- The function generate_matches_for_league.  The shuffled candidate
list (random.shuffle of possible_pairs) is passed as the parameter
shuffled; theorems about the real call quantify over permutations of
possible_pairs league.teams.  Returns the Python boolean result together
with the league after the call (league.matches is written exactly on the
success path). -/
def generate_matches_for_league (league : League) (num : Int)
    (shuffled : List (Team × Team)) : Bool × League :=
  match find_matches_recursive shuffled num (countKeys league.teams) [] (fun _ => 0) 0 with
  | some ms => (true, { league with matchList := ms })
  | none => (false, league)

/-- Fuel-based mirror of generate_matches_for_league, used to evaluate
the scheduler on concrete inputs (the well-founded recursion of
find_matches_recursive does not reduce definitionally). -/
def generate_fuel (league : League) (num : Int)
    (shuffled : List (Team × Team)) : Bool × League :=
  match find_matches_fuel shuffled num (countKeys league.teams) shuffled.length [] (fun _ => 0) 0 with
  | some ms => (true, { league with matchList := ms })
  | none => (false, league)

/-- Count sum(1 for t in lg.teams if t.region == r) of already placed
teams of a league sharing a region. -/
def regionCount (lg : League) (r : String) : Nat :=
  lg.teams.countP fun t => t.region == r

/-- Stable insertion into a key-sorted list: the inserted element goes in
front of the first entry whose key is not smaller, so earlier list
elements stay in front of later ones carrying an equal key. -/
def insertByKey {α : Type} (key : α → Nat) (x : α) : List α → List α
  | [] => [x]
  | y :: ys => if key y < key x then y :: insertByKey key x ys else x :: y :: ys

/-- Stable sort by a numeric key, modelling Python's sorted(..., key=...).
Python's sort is stable, and a stable sort is extensionally unique, so
stable insertion sort returns exactly the list sorted returns. -/
def sortByKey {α : Type} (key : α → Nat) : List α → List α
  | [] => []
  | x :: xs => insertByKey key x (sortByKey key xs)

/-- Default placeholder entry for headD and getD below; it is only ever
used with provably nonempty lists and in-range indices. -/
def noEntry : Nat × (League × Int) := (0, (⟨"", [], []⟩, 0))

/-- Availability scan of divide_into_leagues: the for-loop over
enumerate(leagues) keeping the leagues with
len(league.teams) < league_sizes[i], together with their index and
configured size. -/
def availableEntries (leagues : List League) (sizes : List Int) :
    List (Nat × (League × Int)) :=
  ((leagues.zip sizes).enum).filter fun p => ((p.2.1.teams.length : Int) < p.2.2)

/-- One placement decision of divide_into_leagues, the body of its
for-loop over the shuffled teams.  Availability enumerates the pairs
(i, league) with len(league.teams) < league_sizes[i]; the available
entries are stable-sorted by the count of same-region teams, the minimal
count is read off the first sorted entry, best_options collects the
entries achieving it, and random.choice is modelled by the oracle value
c taken modulo the number of best options.  Returns the index of the
chosen league together with its record, or none when no league is
available (the error branch returning None in the source). -/
def pickLeague (leagues : List League) (sizes : List Int) (team : Team) (c : Nat) :
    Option (Nat × League) :=
  let available := availableEntries leagues sizes
  if available.isEmpty then none
  else
    let best_leagues := sortByKey (fun p => regionCount p.2.1 team.region) available
    let minCount := regionCount (best_leagues.headD noEntry).2.1 team.region
    let best_options := best_leagues.filter
      fun p => regionCount p.2.1 team.region == minCount
    let chosen := best_options.getD (c % best_options.length) noEntry
    some (chosen.1, chosen.2.1)

/-- Loop of divide_into_leagues over the shuffled teams: each team is
appended to the league chosen by pickLeague; a none from pickLeague
aborts the whole partition. -/
def divideAux (sizes : List Int) (choose : Nat → Nat) :
    List Team → Nat → List League → Option (List League)
  | [], _, leagues => some leagues
  | team :: rest, step, leagues =>
    match pickLeague leagues sizes team (choose step) with
    | none => none
    | some (j, lg) =>
      divideAux sizes choose rest (step + 1)
        (leagues.set j { lg with teams := lg.teams ++ [team] })

/-- Display name of the i-th league; the source formats a numbered
string, whose content never matters to the claims. -/
def leagueName (i : Nat) : String :=
  "League" ++ toString (i + 1)

/-- The function divide_into_leagues.  The random permutation
random.sample(teams, len(teams)) is passed as shuffled (theorems about
the real call quantify over permutations of the team list), and
random.choice is modelled by the oracle choose, consulted once per
placed team. -/
def divide_into_leagues (shuffled : List Team) (league_sizes : List Int)
    (choose : Nat → Nat) : Option (List League) :=
  let leagues := league_sizes.enum.map fun p => League.mk (leagueName p.1) [] []
  divideAux league_sizes choose shuffled 0 leagues

/-- Proposition that two pairs name the same unordered pair of teams. -/
def pairEq (p q : Team × Team) : Prop :=
  (p.1 = q.1 ∧ p.2 = q.2) ∨ (p.1 = q.2 ∧ p.2 = q.1)

instance (p q : Team × Team) : Decidable (pairEq p q) := by
  unfold pairEq
  exact inferInstance

/-- Number of id occurrences of a key over a match list: each match
contributes one unit for each of its two slots carrying the id, exactly
as the two dictionary increments of the include branch do. -/
def idOcc (k : Int) (ms : List (Team × Team)) : Nat :=
  (ms.map fun m => (if m.1.id = k then 1 else 0) + (if m.2.id = k then 1 else 0)).sum

/-- Number of matches of a list in which a given team takes part. -/
def appearCount (t : Team) (ms : List (Team × Team)) : Nat :=
  ms.countP fun m => m.1 == t || m.2 == t

/-- Fixture: a two-team league with distinct ids and regions. -/
def wTeamA : Team := ⟨1, "a", "A"⟩

/-- Fixture: second team of the two-team league. -/
def wTeamB : Team := ⟨2, "b", "B"⟩

/-- Fixture: league of wTeamA and wTeamB. -/
def wLeague : League := ⟨"W", [wTeamA, wTeamB], []⟩

/-- Fixture: a league of four teams of one single region (the spec's
failure scenario: no cross-region candidate pair exists). -/
def wSameLeague : League :=
  ⟨"S", [⟨1, "a", "A"⟩, ⟨2, "b", "A"⟩, ⟨3, "c", "A"⟩, ⟨4, "d", "A"⟩], []⟩

/-- Fixture: a one-team league. -/
def wSoloLeague : League := ⟨"O", [⟨1, "a", "A"⟩], []⟩

/-- Fixture: team of id 1 and region A, clashing with dupTeamY on id. -/
def dupTeamX : Team := ⟨1, "x", "A"⟩

/-- Fixture: team of the same id 1 but region B. -/
def dupTeamY : Team := ⟨1, "y", "B"⟩

/-- Fixture: a league of two teams sharing one id, on which the count
dictionary collapses to a single key. -/
def dupLeague : League := ⟨"D", [dupTeamX, dupTeamY], []⟩

/-- Fixture: first team of the partitioner examples. -/
def pTeamA : Team := ⟨1, "a", "A"⟩

/-- Fixture: second team of the partitioner examples. -/
def pTeamB : Team := ⟨2, "b", "B"⟩

/-- Fixture: first empty league of the placement example. -/
def pLeagueX : League := ⟨"X", [], []⟩

/-- Fixture: second empty league of the placement example. -/
def pLeagueY : League := ⟨"Y", [], []⟩

/-- Characterisation of the goal test: every dictionary value equals the
target. -/
theorem goalMet_iff (keys : List Int) (c : Int → Int) (target : Int) :
    goalMet keys c target = true ↔ ∀ k ∈ keys, c k = target := by
  simp [goalMet, List.all_eq_true]

/-- Appending one match adds its two slot indicators to the id count. -/
theorem idOcc_append (k : Int) (ms : List (Team × Team)) (p : Team × Team) :
    idOcc k (ms ++ [p]) =
      idOcc k ms + ((if p.1.id = k then 1 else 0) + (if p.2.id = k then 1 else 0)) := by
  simp [idOcc]

/-- The two dictionary increments of the include branch keep the count
function synchronised with the committed match list. -/
theorem bump_inv (c : Int → Int) (ms : List (Team × Team)) (p : Team × Team)
    (hc : ∀ k, c k = (idOcc k ms : Int)) :
    ∀ k, bumpCount (bumpCount c p.1.id) p.2.id k = (idOcc k (ms ++ [p]) : Int) := by
  intro k
  have hck := hc k
  simp only [bumpCount, idOcc_append]
  split_ifs <;> push_cast <;> omega

/-- A met goal test returns the committed list at once, whatever the
candidate index. -/
theorem find_goal_some (pairs : List (Team × Team)) (target : Int) (keys : List Int)
    (ms : List (Team × Team)) (c : Int → Int) (idx : Nat)
    (h : goalMet keys c target = true) :
    find_matches_recursive pairs target keys ms c idx = some ms := by
  rw [find_matches_recursive.eq_def, if_pos h]

/-- Invariant of the backtracking search: a successful call extends the
committed list by a sublist of the remaining candidates, and if the count
dictionary agrees with the committed list then every key of the
dictionary counts exactly target occurrences in the returned list. -/
theorem find_invariant (pairs : List (Team × Team)) (target : Int) (keys : List Int) :
    ∀ (n idx : Nat) (ms res : List (Team × Team)) (c : Int → Int),
      pairs.length - idx ≤ n →
      find_matches_recursive pairs target keys ms c idx = some res →
      (∃ extra, res = ms ++ extra ∧ extra.Sublist (pairs.drop idx)) ∧
      ((∀ k, c k = (idOcc k ms : Int)) → ∀ k ∈ keys, (idOcc k res : Int) = target) := by
  intro n
  induction n with
  | zero =>
    intro idx ms res c hn hfind
    rw [find_matches_recursive.eq_def] at hfind
    split at hfind
    next hgoal =>
      cases hfind
      refine ⟨⟨[], by simp, List.nil_sublist _⟩, ?_⟩
      intro hc k hk
      rw [← hc k]
      exact (goalMet_iff keys c target).1 hgoal k hk
    next =>
      split at hfind
      next h => omega
      next => exact absurd hfind (by simp)
  | succ n ih =>
    intro idx ms res c hn hfind
    rw [find_matches_recursive.eq_def] at hfind
    split at hfind
    next hgoal =>
      cases hfind
      refine ⟨⟨[], by simp, List.nil_sublist _⟩, ?_⟩
      intro hc k hk
      rw [← hc k]
      exact (goalMet_iff keys c target).1 hgoal k hk
    next =>
      split at hfind
      next h =>
        have hdrop : pairs.drop idx = pairs.get ⟨idx, h⟩ :: pairs.drop (idx + 1) :=
          (List.getElem_cons_drop pairs idx h).symm
        split at hfind
        next r heq =>
          rw [Option.some.inj hfind] at heq
          split at heq
          next hguard =>
            obtain ⟨⟨extra, hres, hsub⟩, hcnt⟩ := ih (idx + 1) (ms ++ [pairs.get ⟨idx, h⟩]) res
              (bumpCount (bumpCount c (pairs.get ⟨idx, h⟩).1.id) (pairs.get ⟨idx, h⟩).2.id)
              (by omega) heq
            constructor
            · refine ⟨pairs.get ⟨idx, h⟩ :: extra, by simp [hres], ?_⟩
              rw [hdrop]
              exact List.Sublist.cons₂ _ hsub
            · intro hc k hk
              exact hcnt (bump_inv c ms _ hc) k hk
          next => exact absurd heq (by simp)
        next heq =>
          obtain ⟨⟨extra, hres, hsub⟩, hcnt⟩ := ih (idx + 1) ms res c (by omega) hfind
          refine ⟨⟨extra, hres, ?_⟩, hcnt⟩
          rw [hdrop]
          exact hsub.cons _
      next => exact absurd hfind (by simp)

/-- With a negative target and a nonempty key set the search never
succeeds: the goal test cannot hold on zero counts and the include guard
never fires, so the counts stay zero along the whole exploration. -/
theorem find_neg (pairs : List (Team × Team)) (target : Int) (keys : List Int)
    (hk : keys ≠ []) (hneg : target < 0) :
    ∀ (n idx : Nat) (ms : List (Team × Team)),
      pairs.length - idx ≤ n →
      find_matches_recursive pairs target keys ms (fun _ => 0) idx = none := by
  have hg : ¬ (goalMet keys (fun _ => 0) target = true) := by
    rw [goalMet_iff]
    intro hall
    obtain ⟨k, hkmem⟩ := List.exists_mem_of_ne_nil keys hk
    have := hall k hkmem
    omega
  intro n
  induction n with
  | zero =>
    intro idx ms hn
    rw [find_matches_recursive.eq_def, if_neg hg, dif_neg (by omega)]
  | succ n ih =>
    intro idx ms hn
    rw [find_matches_recursive.eq_def, if_neg hg]
    by_cases hlen : idx < pairs.length
    · rw [dif_pos hlen]
      have hguard : ¬ ((fun _ => (0 : Int)) (pairs.get ⟨idx, hlen⟩).1.id < target ∧
          (fun _ => (0 : Int)) (pairs.get ⟨idx, hlen⟩).2.id < target) := by
        intro hcontra
        have h1 : (0 : Int) < target := hcontra.1
        omega
      rw [if_neg hguard]
      exact ih (idx + 1) ms (by omega)
    · rw [dif_neg hlen]

/-- Agreement of the fuel-indexed search with the source recursion: any
fuel covering the number of remaining candidates gives the same result,
so the recursion depth is bounded by the candidate count. -/
theorem find_fuel_eq (pairs : List (Team × Team)) (target : Int) (keys : List Int) :
    ∀ (fuel idx : Nat) (ms : List (Team × Team)) (c : Int → Int),
      pairs.length - idx ≤ fuel →
      find_matches_fuel pairs target keys fuel ms c idx =
        find_matches_recursive pairs target keys ms c idx := by
  intro fuel
  induction fuel with
  | zero =>
    intro idx ms c hn
    rw [find_matches_recursive.eq_def]
    unfold find_matches_fuel
    by_cases hgoal : goalMet keys c target
    · rw [if_pos hgoal, if_pos hgoal]
    · rw [if_neg hgoal, if_neg hgoal, dif_neg (by omega)]
  | succ fuel ih =>
    intro idx ms c hn
    rw [find_matches_recursive.eq_def]
    unfold find_matches_fuel
    by_cases hgoal : goalMet keys c target
    · rw [if_pos hgoal, if_pos hgoal]
    · rw [if_neg hgoal, if_neg hgoal]
      by_cases hlen : idx < pairs.length
      · rw [dif_pos hlen, dif_pos hlen,
          ih (idx + 1) (ms ++ [pairs.get ⟨idx, hlen⟩])
            (bumpCount (bumpCount c (pairs.get ⟨idx, hlen⟩).1.id) (pairs.get ⟨idx, hlen⟩).2.id)
            (by omega),
          ih (idx + 1) ms c (by omega)]
      · rw [dif_neg hlen, dif_neg hlen]

/-- The two renderings of the scheduler agree, which lets the scheduler
be evaluated on concrete inputs. -/
theorem generate_eq_fuel (league : League) (num : Int) (shuffled : List (Team × Team)) :
    generate_matches_for_league league num shuffled = generate_fuel league num shuffled := by
  unfold generate_matches_for_league generate_fuel
  rw [find_fuel_eq shuffled num (countKeys league.teams) shuffled.length 0 [] (fun _ => 0)
    (by omega)]

/-- Canonicalisation keeps exactly the two given teams, in one of the two
orders. -/
theorem sortPair_cases (a b : Team) :
    sortPair a b = (a, b) ∨ sortPair a b = (b, a) := by
  unfold sortPair
  split <;> simp

/-- Every candidate pair joins two teams of different regions. -/
theorem possible_pairs_region : ∀ (teams : List Team), ∀ p ∈ possible_pairs teams,
    p.1.region ≠ p.2.region := by
  intro teams
  induction teams with
  | nil =>
    intro p hp
    simp [possible_pairs] at hp
  | cons t rest ih =>
    intro p hp
    simp only [possible_pairs, List.mem_append, List.mem_filterMap] at hp
    rcases hp with ⟨u, _, hif⟩ | hp
    · split at hif
      next hreg =>
        have hp' := Option.some.inj hif
        rcases sortPair_cases t u with hsp | hsp <;> rw [hsp] at hp' <;> rw [← hp']
        · exact hreg
        · exact fun hh => hreg hh.symm
      next => exact absurd hif (by simp)
    · exact ih p hp

/-- Both components of every candidate pair belong to the team list. -/
theorem possible_pairs_mem : ∀ (teams : List Team), ∀ p ∈ possible_pairs teams,
    p.1 ∈ teams ∧ p.2 ∈ teams := by
  intro teams
  induction teams with
  | nil =>
    intro p hp
    simp [possible_pairs] at hp
  | cons t rest ih =>
    intro p hp
    simp only [possible_pairs, List.mem_append, List.mem_filterMap] at hp
    rcases hp with ⟨u, hu, hif⟩ | hp
    · split at hif
      next =>
        have hp' := Option.some.inj hif
        rcases sortPair_cases t u with hsp | hsp <;> rw [hsp] at hp' <;> rw [← hp'] <;>
          exact ⟨by simp [hu], by simp [hu]⟩
      next => exact absurd hif (by simp)
    · exact ⟨List.mem_cons_of_mem t (ih p hp).1, List.mem_cons_of_mem t (ih p hp).2⟩

/-- The candidate list holds at most n choose 2 pairs for n teams. -/
theorem possible_pairs_length_le : ∀ (teams : List Team),
    (possible_pairs teams).length ≤ Nat.choose teams.length 2 := by
  intro teams
  induction teams with
  | nil => simp [possible_pairs]
  | cons t rest ih =>
    simp only [possible_pairs, List.length_append, List.length_cons]
    have h1 := List.length_filterMap_le
      (fun u => if t.region ≠ u.region then some (sortPair t u) else none) rest
    have h2 : Nat.choose (rest.length + 1) 2 = rest.length + Nat.choose rest.length 2 := by
      rw [Nat.choose_succ_succ, Nat.choose_one_right]
    omega

/-- Unordered-pair equality of two canonicalised pairs comes from the
underlying elements agreeing up to swap. -/
theorem pairEq_sortPair {a b a' b' : Team} (h : pairEq (sortPair a b) (sortPair a' b')) :
    (a = a' ∧ b = b') ∨ (a = b' ∧ b = a') := by
  unfold sortPair at h
  unfold pairEq at h
  split at h <;> split at h <;> simp at h <;> tauto

/-- Pairwise property transported through filterMap, with memberships
available to the side condition. -/
theorem pairwise_filterMap_aux {α β : Type} (f : α → Option β) (R : β → β → Prop)
    (S : α → α → Prop) :
    ∀ (l : List α), List.Pairwise S l →
      (∀ a ∈ l, ∀ b ∈ l, ∀ x y, S a b → f a = some x → f b = some y → R x y) →
      List.Pairwise R (l.filterMap f) := by
  intro l
  induction l with
  | nil =>
    intro _ _
    simp
  | cons a l ih =>
    intro hS h
    rw [List.pairwise_cons] at hS
    rw [List.filterMap_cons]
    have hrec := ih hS.2 fun x hx y hy => h x (List.mem_cons_of_mem a hx) y (List.mem_cons_of_mem a hy)
    split
    next => exact hrec
    next x hfa =>
      rw [List.pairwise_cons]
      refine ⟨?_, hrec⟩
      intro y hy
      obtain ⟨b, hb, hfb⟩ := List.mem_filterMap.1 hy
      exact h a (List.mem_cons_self a l) b (List.mem_cons_of_mem a hb) x y (hS.1 b hb) hfa hfb

/-- With pairwise distinct team ids the candidate list never repeats an
unordered pair: the canonicalised candidate set is duplicate-free. -/
theorem possible_pairs_pairwise : ∀ (teams : List Team),
    (teams.map Team.id).Nodup →
    List.Pairwise (fun p q => ¬ pairEq p q) (possible_pairs teams) := by
  intro teams
  induction teams with
  | nil =>
    intro _
    simp [possible_pairs]
  | cons t rest ih =>
    intro hnd
    rw [List.map_cons, List.nodup_cons] at hnd
    obtain ⟨hid, hndr⟩ := hnd
    have hidr : ∀ u ∈ rest, t.id ≠ u.id := by
      intro u hu heq
      exact hid (heq ▸ List.mem_map_of_mem Team.id hu)
    have hSrest : List.Pairwise (fun a b : Team => a.id ≠ b.id) rest :=
      List.pairwise_map.1 hndr
    simp only [possible_pairs]
    rw [List.pairwise_append]
    refine ⟨?_, ih hndr, ?_⟩
    · refine pairwise_filterMap_aux _ _ (fun a b : Team => a.id ≠ b.id) rest hSrest ?_
      intro u hu v hv x y hS hfu hfv
      intro hpq
      have hx : sortPair t u = x := by
        revert hfu
        split
        next => exact fun hh => Option.some.inj hh
        next => simp
      have hy : sortPair t v = y := by
        revert hfv
        split
        next => exact fun hh => Option.some.inj hh
        next => simp
      rw [← hx, ← hy] at hpq
      rcases pairEq_sortPair hpq with ⟨_, huv⟩ | ⟨htv, hut⟩
      · exact hS (congrArg Team.id huv)
      · exact hidr v hv (congrArg Team.id htv)
    · intro p hp q hq
      obtain ⟨u, hu, hif⟩ := List.mem_filterMap.1 hp
      have hq1 := (possible_pairs_mem rest q hq).1
      have hq2 := (possible_pairs_mem rest q hq).2
      have hp' : sortPair t u = p := by
        revert hif
        split
        next => exact fun hh => Option.some.inj hh
        next => simp
      intro hpq
      have ht : t = q.1 ∨ t = q.2 := by
        rw [← hp'] at hpq
        rcases sortPair_cases t u with hsp | hsp <;> rw [hsp] at hpq <;>
          simp only [pairEq] at hpq <;> tauto
      rcases ht with h | h
      · exact hidr q.1 hq1 (congrArg Team.id h)
      · exact hidr q.2 hq2 (congrArg Team.id h)

/-- Unordered pair equality is symmetric. -/
theorem pairEq_symm {p q : Team × Team} (h : pairEq p q) : pairEq q p := by
  unfold pairEq at h ⊢
  tauto

/-- Surface form of a successful scheduler call: the returned league
carries the list the search produced from the empty state, and the other
fields are untouched. -/
theorem generate_success (league : League) (n : Int) (shuffled : List (Team × Team))
    (league' : League)
    (h : generate_matches_for_league league n shuffled = (true, league')) :
    find_matches_recursive shuffled n (countKeys league.teams) [] (fun _ => 0) 0 =
      some league'.matchList ∧ league'.teams = league.teams ∧ league'.name = league.name := by
  unfold generate_matches_for_league at h
  rcases hf : find_matches_recursive shuffled n (countKeys league.teams) [] (fun _ => 0) 0
    with _ | ms
  · rw [hf] at h
    exact absurd h (by simp)
  · rw [hf] at h
    injection h with h1 h2
    subst h2
    exact ⟨rfl, rfl, rfl⟩

/-- Analysis of a successful scheduler run: the committed list is a
sublist of the shuffled candidate list and every dictionary key counts
exactly the target. -/
theorem generate_success_analysis (league : League) (n : Int)
    (shuffled : List (Team × Team)) (league' : League)
    (h : generate_matches_for_league league n shuffled = (true, league')) :
    league'.matchList.Sublist shuffled ∧
    (∀ k ∈ countKeys league.teams, (idOcc k league'.matchList : Int) = n) := by
  obtain ⟨hf, _, _⟩ := generate_success league n shuffled league' h
  obtain ⟨⟨extra, hres, hsub⟩, hcnt⟩ :=
    find_invariant shuffled n (countKeys league.teams) shuffled.length 0 []
      league'.matchList (fun _ => 0) (by omega) hf
  constructor
  · rw [hres, List.nil_append]
    simpa using hsub
  · intro k hk
    exact hcnt (fun k' => by simp [idOcc]) k hk

/-- Under distinct team ids, when both slots of every match hold league
teams of different regions, the id count of a team equals the number of
matches the team takes part in. -/
theorem idOcc_eq_appearCount (teams : List Team) (hnd : (teams.map Team.id).Nodup)
    (t : Team) (ht : t ∈ teams) :
    ∀ (ms : List (Team × Team)),
      (∀ m ∈ ms, m.1 ∈ teams ∧ m.2 ∈ teams ∧ m.1.region ≠ m.2.region) →
      idOcc t.id ms = appearCount t ms := by
  intro ms
  induction ms with
  | nil =>
    intro _
    simp [idOcc, appearCount]
  | cons m ms ih =>
    intro hm
    have hmem := hm m (List.mem_cons_self m ms)
    have hrec := ih fun x hx => hm x (List.mem_cons_of_mem m hx)
    have e1 : (m.1.id = t.id) ↔ (m.1 = t) :=
      ⟨fun hh => List.inj_on_of_nodup_map hnd hmem.1 ht hh, fun hh => congrArg Team.id hh⟩
    have e2 : (m.2.id = t.id) ↔ (m.2 = t) :=
      ⟨fun hh => List.inj_on_of_nodup_map hnd hmem.2.1 ht hh, fun hh => congrArg Team.id hh⟩
    have e3 : ¬ (m.1 = t ∧ m.2 = t) := by
      intro hh
      exact hmem.2.2 (by rw [hh.1, hh.2])
    simp only [idOcc, List.map_cons, List.sum_cons, appearCount, List.countP_cons] at hrec ⊢
    by_cases hm1 : m.1 = t <;> by_cases hm2 : m.2 = t
    · exact absurd ⟨hm1, hm2⟩ e3
    all_goals simp [e1, e2, hm1, hm2, hrec]
    all_goals omega

/-- Claim C1 as stated is false: for the league of dupTeamX and dupTeamY
(two teams sharing id 1, regions A and B) and matches_per_team 2 the
scheduler succeeds — the single dictionary key 1 is incremented twice by
the single committed match — yet each team appears in only 1 match, not
2.  All hypotheses of the claim hold at this input. -/
theorem claim_c1_counterexample :
    (0 : Int) ≤ 2 ∧
    (possible_pairs dupLeague.teams).Perm (possible_pairs dupLeague.teams) ∧
    generate_matches_for_league dupLeague 2 (possible_pairs dupLeague.teams) =
      (true, { dupLeague with matchList := [(dupTeamX, dupTeamY)] }) ∧
    dupTeamX ∈ dupLeague.teams ∧
    (appearCount dupTeamX [(dupTeamX, dupTeamY)] : Int) ≠ 2 :=
  ⟨by decide, List.Perm.refl _, (generate_eq_fuel _ _ _).trans (by decide),
   by decide, by decide⟩

/-- Claim C1, amended with the league's teams carrying pairwise distinct
ids (the data model's id-uniqueness invariant): for every such league
and every non-negative matches_per_team, a successful scheduler run
stores a match list in which every team of the league appears exactly
matches_per_team times; and the goal test is evaluated before the
exhaustion test, so a met goal returns at once even with candidates
left over. -/
theorem claim_c1_exact_match_count :
    (∀ (league : League) (n : Int) (shuffled : List (Team × Team)) (league' : League),
      0 ≤ n →
      (league.teams.map Team.id).Nodup →
      shuffled.Perm (possible_pairs league.teams) →
      generate_matches_for_league league n shuffled = (true, league') →
      ∀ t ∈ league.teams, (appearCount t league'.matchList : Int) = n) ∧
    (∀ (pairs : List (Team × Team)) (target : Int) (keys : List Int)
        (ms : List (Team × Team)) (c : Int → Int) (idx : Nat),
      goalMet keys c target = true →
      find_matches_recursive pairs target keys ms c idx = some ms) := by
  constructor
  · intro league n shuffled league' _ hnd hperm h t ht
    obtain ⟨hsub, hcnt⟩ := generate_success_analysis league n shuffled league' h
    have hkey : t.id ∈ countKeys league.teams := List.mem_map_of_mem Team.id ht
    have hocc := hcnt t.id hkey
    have hmem : ∀ m ∈ league'.matchList,
        m.1 ∈ league.teams ∧ m.2 ∈ league.teams ∧ m.1.region ≠ m.2.region := by
      intro m hmm
      have hpp : m ∈ possible_pairs league.teams := hperm.mem_iff.1 (hsub.mem hmm)
      exact ⟨(possible_pairs_mem _ m hpp).1, (possible_pairs_mem _ m hpp).2,
        possible_pairs_region _ m hpp⟩
    rw [← idOcc_eq_appearCount league.teams hnd t ht league'.matchList hmem]
    exact hocc
  · intro pairs target keys ms c idx hgoal
    exact find_goal_some pairs target keys ms c idx hgoal

/-- Witness for claim C1 at the two-team fixture league with
matches_per_team 1. -/
theorem claim_c1_witness :
    ((0 : Int) ≤ 1 ∧ (wLeague.teams.map Team.id).Nodup ∧
      generate_matches_for_league wLeague 1 (possible_pairs wLeague.teams) =
        (true, { wLeague with matchList := [(wTeamA, wTeamB)] }) ∧
      ∀ t ∈ wLeague.teams,
        (appearCount t ({ wLeague with matchList := [(wTeamA, wTeamB)] }).matchList : Int) = 1) ∧
    goalMet [(5 : Int)] (fun _ => 3) 3 = true ∧
    find_matches_recursive [] 3 [(5 : Int)] [] (fun _ => 3) 0 = some [] :=
  ⟨⟨by decide, by decide, (generate_eq_fuel _ _ _).trans (by decide),
    claim_c1_exact_match_count.1 wLeague 1 (possible_pairs wLeague.teams) _
      (by decide) (by decide) (List.Perm.refl _)
      ((generate_eq_fuel _ _ _).trans (by decide))⟩,
   by decide,
   claim_c1_exact_match_count.2 [] 3 [(5 : Int)] [] (fun _ => 3) 0 (by decide)⟩

/-- Claim C2: every match committed by a successful scheduler run pairs
two teams of different regions, because the candidate list only holds
cross-region pairs and committed matches are drawn from it. -/
theorem claim_c2_cross_region :
    ∀ (league : League) (n : Int) (shuffled : List (Team × Team)) (league' : League),
      shuffled.Perm (possible_pairs league.teams) →
      generate_matches_for_league league n shuffled = (true, league') →
      ∀ p ∈ league'.matchList, p.1.region ≠ p.2.region := by
  intro league n shuffled league' hperm h p hp
  obtain ⟨hsub, _⟩ := generate_success_analysis league n shuffled league' h
  exact possible_pairs_region league.teams p (hperm.mem_iff.1 (hsub.mem hp))

/-- Witness for claim C2 at the two-team fixture league. -/
theorem claim_c2_witness :
    (possible_pairs wLeague.teams).Perm (possible_pairs wLeague.teams) ∧
    generate_matches_for_league wLeague 1 (possible_pairs wLeague.teams) =
      (true, { wLeague with matchList := [(wTeamA, wTeamB)] }) ∧
    ∀ p ∈ ({ wLeague with matchList := [(wTeamA, wTeamB)] } : League).matchList,
      p.1.region ≠ p.2.region :=
  ⟨List.Perm.refl _, (generate_eq_fuel _ _ _).trans (by decide),
   claim_c2_cross_region wLeague 1 (possible_pairs wLeague.teams) _ (List.Perm.refl _)
     ((generate_eq_fuel _ _ _).trans (by decide))⟩

/-- Claim C3: with pairwise distinct team ids, a successful scheduler
run commits no unordered pair of teams twice; the underlying candidate
list is itself duplicate-free as a set of unordered pairs, and the
committed list is a sublist of it. -/
theorem claim_c3_no_duplicate_pair :
    ∀ (league : League) (n : Int) (shuffled : List (Team × Team)) (league' : League),
      (league.teams.map Team.id).Nodup →
      shuffled.Perm (possible_pairs league.teams) →
      generate_matches_for_league league n shuffled = (true, league') →
      List.Pairwise (fun p q => ¬ pairEq p q) league'.matchList ∧
      List.Pairwise (fun p q => ¬ pairEq p q) (possible_pairs league.teams) := by
  intro league n shuffled league' hnd hperm h
  have hpp := possible_pairs_pairwise league.teams hnd
  have hshuffled : List.Pairwise (fun p q => ¬ pairEq p q) shuffled :=
    (hperm.pairwise_iff fun hab hba => hab (pairEq_symm hba)).2 hpp
  obtain ⟨hsub, _⟩ := generate_success_analysis league n shuffled league' h
  exact ⟨List.Pairwise.sublist hsub hshuffled, hpp⟩

/-- Witness for claim C3 at the two-team fixture league. -/
theorem claim_c3_witness :
    (wLeague.teams.map Team.id).Nodup ∧
    generate_matches_for_league wLeague 1 (possible_pairs wLeague.teams) =
      (true, { wLeague with matchList := [(wTeamA, wTeamB)] }) ∧
    List.Pairwise (fun p q => ¬ pairEq p q)
      ({ wLeague with matchList := [(wTeamA, wTeamB)] } : League).matchList ∧
    List.Pairwise (fun p q => ¬ pairEq p q) (possible_pairs wLeague.teams) :=
  ⟨by decide, (generate_eq_fuel _ _ _).trans (by decide),
   claim_c3_no_duplicate_pair wLeague 1 (possible_pairs wLeague.teams) _
     (by decide) (List.Perm.refl _) ((generate_eq_fuel _ _ _).trans (by decide))⟩

/-- Claim C5: a failing scheduler call leaves the league exactly as it
was — the only write to league.matches sits on the success path. -/
theorem claim_c5_failure_preserves_league :
    ∀ (league : League) (n : Int) (shuffled : List (Team × Team)),
      (generate_matches_for_league league n shuffled).1 = false →
      (generate_matches_for_league league n shuffled).2 = league := by
  intro league n shuffled h
  unfold generate_matches_for_league at h ⊢
  rcases hf : find_matches_recursive shuffled n (countKeys league.teams) [] (fun _ => 0) 0
    with _ | ms
  · rfl
  · rw [hf] at h
    exact absurd h (by simp)

/-- Witness for claim C5 at the spec's all-one-region failure scenario:
four teams of region A, target 1, empty candidate list. -/
theorem claim_c5_witness :
    (generate_matches_for_league wSameLeague 1 (possible_pairs wSameLeague.teams)).1 = false ∧
    (generate_matches_for_league wSameLeague 1 (possible_pairs wSameLeague.teams)).2 =
      wSameLeague :=
  ⟨(congrArg Prod.fst (generate_eq_fuel wSameLeague 1 (possible_pairs wSameLeague.teams))).trans
      (by decide),
   claim_c5_failure_preserves_league wSameLeague 1 (possible_pairs wSameLeague.teams)
     ((congrArg Prod.fst (generate_eq_fuel wSameLeague 1
        (possible_pairs wSameLeague.teams))).trans (by decide))⟩

/-- Claim C6: with matches_per_team 0 the scheduler succeeds at once for
every league composition and every candidate list, storing the empty
match list: the goal test holds on the all-zero dictionary before any
candidate is looked at. -/
theorem claim_c6_zero_target :
    ∀ (league : League) (shuffled : List (Team × Team)),
      generate_matches_for_league league 0 shuffled =
        (true, { league with matchList := [] }) := by
  intro league shuffled
  unfold generate_matches_for_league
  rw [find_goal_some _ _ _ _ _ _ ((goalMet_iff _ _ _).2 fun k _ => rfl)]

/-- Claim C9: the backtracking search is total, with recursion depth
bounded by the candidate-list length: fuel pairs.length - idx already
reproduces the search exactly, and the shuffled candidate list of a
league of n teams holds at most n choose 2 entries. -/
theorem claim_c9_termination_depth :
    ∀ (league : League) (target : Int) (shuffled : List (Team × Team)),
      shuffled.Perm (possible_pairs league.teams) →
      (∀ (ms : List (Team × Team)) (c : Int → Int) (idx : Nat),
        find_matches_fuel shuffled target (countKeys league.teams)
            (shuffled.length - idx) ms c idx =
          find_matches_recursive shuffled target (countKeys league.teams) ms c idx) ∧
      shuffled.length ≤ Nat.choose league.teams.length 2 := by
  intro league target shuffled hperm
  constructor
  · intro ms c idx
    exact find_fuel_eq shuffled target (countKeys league.teams)
      (shuffled.length - idx) idx ms c (le_refl _)
  · rw [hperm.length_eq]
    exact possible_pairs_length_le league.teams

/-- Witness for claim C9 at the two-team fixture league. -/
theorem claim_c9_witness :
    (find_matches_fuel (possible_pairs wLeague.teams) 1 (countKeys wLeague.teams)
        ((possible_pairs wLeague.teams).length - 0) [] (fun _ => 0) 0 =
      find_matches_recursive (possible_pairs wLeague.teams) 1 (countKeys wLeague.teams)
        [] (fun _ => 0) 0) ∧
    (possible_pairs wLeague.teams).length ≤ Nat.choose wLeague.teams.length 2 :=
  ⟨(claim_c9_termination_depth wLeague 1 (possible_pairs wLeague.teams)
      (List.Perm.refl _)).1 [] (fun _ => 0) 0,
   (claim_c9_termination_depth wLeague 1 (possible_pairs wLeague.teams)
      (List.Perm.refl _)).2⟩

/-- Claim C10: for a league with at least one team and a strictly
negative matches_per_team the scheduler fails and returns the league
untouched, whatever the candidate list: the goal test can never hold on
zero-initialised counts and the include guard never fires. -/
theorem claim_c10_negative_target :
    ∀ (league : League) (n : Int) (shuffled : List (Team × Team)),
      league.teams ≠ [] → n < 0 →
      generate_matches_for_league league n shuffled = (false, league) := by
  intro league n shuffled hne hneg
  have hkeys : countKeys league.teams ≠ [] := by
    intro hh
    exact hne (List.map_eq_nil_iff.1 hh)
  unfold generate_matches_for_league
  rw [find_neg shuffled n (countKeys league.teams) hkeys hneg shuffled.length 0 [] (by omega)]

/-- Witness for claim C10 at the one-team fixture league with
matches_per_team minus one. -/
theorem claim_c10_witness :
    wSoloLeague.teams ≠ [] ∧ (-1 : Int) < 0 ∧
    generate_matches_for_league wSoloLeague (-1) [] = (false, wSoloLeague) :=
  ⟨by decide, by decide, claim_c10_negative_target wSoloLeague (-1) [] (by decide) (by decide)⟩

/-- Stable insertion permutes to putting the element in front. -/
theorem insertByKey_perm {α : Type} (key : α → Nat) (x : α) :
    ∀ (l : List α), (insertByKey key x l).Perm (x :: l) := by
  intro l
  induction l with
  | nil => simp [insertByKey]
  | cons y ys ih =>
    unfold insertByKey
    split
    · exact (ih.cons y).trans (List.Perm.swap x y ys)
    · exact List.Perm.refl _

/-- The stable insertion sort permutes its input. -/
theorem sortByKey_perm {α : Type} (key : α → Nat) :
    ∀ (l : List α), (sortByKey key l).Perm l := by
  intro l
  induction l with
  | nil => simp [sortByKey]
  | cons x xs ih =>
    unfold sortByKey
    exact (insertByKey_perm key x (sortByKey key xs)).trans (ih.cons x)

/-- Inserting into a key-sorted list keeps it key-sorted. -/
theorem insertByKey_sorted {α : Type} (key : α → Nat) (x : α) :
    ∀ (l : List α), List.Pairwise (fun a b => key a ≤ key b) l →
      List.Pairwise (fun a b => key a ≤ key b) (insertByKey key x l) := by
  intro l
  induction l with
  | nil =>
    intro _
    simp [insertByKey]
  | cons y ys ih =>
    intro hs
    rw [List.pairwise_cons] at hs
    unfold insertByKey
    split
    next hlt =>
      rw [List.pairwise_cons]
      refine ⟨?_, ih hs.2⟩
      intro b hb
      rcases List.mem_cons.1 ((insertByKey_perm key x ys).mem_iff.1 hb) with rfl | hb'
      · omega
      · exact hs.1 b hb'
    next hge =>
      rw [List.pairwise_cons]
      refine ⟨?_, List.pairwise_cons.2 hs⟩
      intro b hb
      rcases List.mem_cons.1 hb with rfl | hb'
      · omega
      · have := hs.1 b hb'
        omega

/-- The stable insertion sort is key-sorted. -/
theorem sortByKey_sorted {α : Type} (key : α → Nat) :
    ∀ (l : List α), List.Pairwise (fun a b => key a ≤ key b) (sortByKey key l) := by
  intro l
  induction l with
  | nil => simp [sortByKey]
  | cons x xs ih =>
    unfold sortByKey
    exact insertByKey_sorted key x _ ih

/-- Unpacking of membership in the availability scan. -/
theorem mem_availableEntries {leagues : List League} {sizes : List Int}
    {q : Nat × (League × Int)} (hq : q ∈ availableEntries leagues sizes) :
    leagues[q.1]? = some q.2.1 ∧ sizes[q.1]? = some q.2.2 ∧
      ((q.2.1.teams.length : Int) < q.2.2) := by
  obtain ⟨i, lg, s⟩ := q
  rw [availableEntries, List.mem_filter] at hq
  obtain ⟨hmem, hpred⟩ := hq
  rw [List.mk_mem_enum_iff_getElem?, List.getElem?_zip_eq_some] at hmem
  exact ⟨hmem.1, hmem.2, by simpa using hpred⟩

/-- A not-yet-full league at a common index yields an availability
entry. -/
theorem availableEntries_mem {leagues : List League} {sizes : List Int} {i : Nat}
    (hi : i < leagues.length) (hs : i < sizes.length)
    (hlt : ((leagues.get ⟨i, hi⟩).teams.length : Int) < sizes.get ⟨i, hs⟩) :
    (i, (leagues.get ⟨i, hi⟩, sizes.get ⟨i, hs⟩)) ∈ availableEntries leagues sizes := by
  rw [availableEntries, List.mem_filter]
  refine ⟨?_, by simpa using hlt⟩
  rw [List.mk_mem_enum_iff_getElem?, List.getElem?_zip_eq_some]
  exact ⟨List.getElem?_eq_some_iff.2 ⟨hi, rfl⟩, List.getElem?_eq_some_iff.2 ⟨hs, rfl⟩⟩

/-- Soundness of one placement decision: the returned league sits at the
returned index among the available entries, and its same-region count is
minimal among all available entries. -/
theorem pickLeague_spec (leagues : List League) (sizes : List Int) (team : Team) (c : Nat)
    (j : Nat) (lg : League)
    (h : pickLeague leagues sizes team c = some (j, lg)) :
    ∃ s : Int, (j, (lg, s)) ∈ availableEntries leagues sizes ∧
      ∀ q ∈ availableEntries leagues sizes,
        regionCount lg team.region ≤ regionCount q.2.1 team.region := by
  simp only [pickLeague] at h
  by_cases hemp : (availableEntries leagues sizes).isEmpty
  · rw [if_pos hemp] at h
    exact absurd h (by simp)
  · rw [if_neg hemp] at h
    have hne : availableEntries leagues sizes ≠ [] :=
      List.isEmpty_eq_false.1 (Bool.eq_false_iff.2 hemp)
    rcases hsort : sortByKey (fun p => regionCount p.2.1 team.region)
        (availableEntries leagues sizes) with _ | ⟨x, rest⟩
    · have hlen := (sortByKey_perm (fun p => regionCount p.2.1 team.region)
        (availableEntries leagues sizes)).length_eq
      rw [hsort] at hlen
      exact absurd (List.length_eq_zero.1 hlen.symm) hne
    · have hsorted := sortByKey_sorted (fun p => regionCount p.2.1 team.region)
        (availableEntries leagues sizes)
      have hperm := sortByKey_perm (fun p => regionCount p.2.1 team.region)
        (availableEntries leagues sizes)
      rw [hsort] at hsorted hperm h
      simp only [List.headD_cons] at h
      set best := (x :: rest).filter
        (fun p => regionCount p.2.1 team.region == regionCount x.2.1 team.region)
        with hbest
      have hxbest : x ∈ best := by
        rw [hbest, List.mem_filter]
        exact ⟨List.mem_cons_self x rest, by simp⟩
      have hbestlen : 0 < best.length := List.length_pos.2 (List.ne_nil_of_mem hxbest)
      have hchosen_mem : best.getD (c % best.length) noEntry ∈ best := by
        rw [List.getD_eq_getElem best noEntry (Nat.mod_lt c hbestlen)]
        exact List.getElem_mem _
      have hchosen_mem' := hchosen_mem
      rw [hbest] at hchosen_mem'
      have hchosen_key : regionCount (best.getD (c % best.length) noEntry).2.1 team.region =
          regionCount x.2.1 team.region := by
        have h2 := (List.mem_filter.1 hchosen_mem').2
        exact beq_iff_eq.1 h2
      have hchosen_avail : best.getD (c % best.length) noEntry ∈
          availableEntries leagues sizes :=
        hperm.mem_iff.1 (List.mem_of_mem_filter hchosen_mem')
      injection h with h'
      have hj : (best.getD (c % best.length) noEntry).1 = j := congrArg Prod.fst h'
      have hlg : (best.getD (c % best.length) noEntry).2.1 = lg := congrArg Prod.snd h'
      refine ⟨(best.getD (c % best.length) noEntry).2.2, ?_, ?_⟩
      · rw [← hj, ← hlg]
        exact hchosen_avail
      · intro q hq
        have hq' : q ∈ x :: rest := hperm.mem_iff.2 hq
        have hxq : regionCount x.2.1 team.region ≤ regionCount q.2.1 team.region := by
          rcases List.mem_cons.1 hq' with rfl | hq''
          · exact le_refl _
          · exact (List.pairwise_cons.1 hsorted).1 q hq''
        rw [← hlg, hchosen_key]
        exact hxq

/-- The placement decision fails exactly when no league is available. -/
theorem pickLeague_none_iff (leagues : List League) (sizes : List Int) (team : Team)
    (c : Nat) :
    pickLeague leagues sizes team c = none ↔ availableEntries leagues sizes = [] := by
  simp only [pickLeague]
  by_cases hemp : (availableEntries leagues sizes).isEmpty
  · rw [if_pos hemp]
    simp [List.isEmpty_iff.1 hemp]
  · rw [if_neg hemp]
    exact iff_of_false (by simp) (List.isEmpty_eq_false.1 (Bool.eq_false_iff.2 hemp))

/-- The partition loop preserves the number of leagues. -/
theorem divideAux_length (sizes : List Int) (choose : Nat → Nat) :
    ∀ (rest : List Team) (step : Nat) (leagues result : List League),
      divideAux sizes choose rest step leagues = some result →
      result.length = leagues.length := by
  intro rest
  induction rest with
  | nil =>
    intro step leagues result h
    simp only [divideAux] at h
    rw [← Option.some.inj h]
  | cons team rest ih =>
    intro step leagues result h
    simp only [divideAux] at h
    rcases hp : pickLeague leagues sizes team (choose step) with _ | jl
    · rw [hp] at h
      exact absurd h (by simp)
    · obtain ⟨j, lg⟩ := jl
      rw [hp] at h
      have hrec := ih (step + 1) _ result h
      rw [hrec, List.length_set]

/-- Appending a team to the league at a valid index permutes the joined
rosters to appending that team at the end. -/
theorem flatten_set_append (team : Team) :
    ∀ (leagues : List League) (j : Nat) (lg : League),
      leagues[j]? = some lg →
      (((leagues.set j { lg with teams := lg.teams ++ [team] }).map League.teams).flatten).Perm
        (((leagues.map League.teams).flatten) ++ [team]) := by
  intro leagues
  induction leagues with
  | nil =>
    intro j lg h
    simp at h
  | cons L ls ih =>
    intro j lg h
    cases j with
    | zero =>
      have hL : L = lg := by simpa using h
      subst hL
      simp only [List.set_cons_zero, List.map_cons, List.flatten_cons]
      rw [List.append_assoc, List.append_assoc]
      exact List.Perm.append_left L.teams List.perm_append_comm
    | succ j =>
      have h' : ls[j]? = some lg := by simpa using h
      simp only [List.set_cons_succ, List.map_cons, List.flatten_cons]
      rw [List.append_assoc]
      exact List.Perm.append_left L.teams (ih j lg h')

/-- Running the partition loop appends, up to permutation, the processed
teams to the joined league rosters. -/
theorem divideAux_flatten (sizes : List Int) (choose : Nat → Nat) :
    ∀ (rest : List Team) (step : Nat) (leagues result : List League),
      divideAux sizes choose rest step leagues = some result →
      ((result.map League.teams).flatten).Perm
        (((leagues.map League.teams).flatten) ++ rest) := by
  intro rest
  induction rest with
  | nil =>
    intro step leagues result h
    simp only [divideAux] at h
    rw [← Option.some.inj h, List.append_nil]
  | cons team rest ih =>
    intro step leagues result h
    simp only [divideAux] at h
    rcases hp : pickLeague leagues sizes team (choose step) with _ | jl
    · rw [hp] at h
      exact absurd h (by simp)
    · obtain ⟨j, lg⟩ := jl
      rw [hp] at h
      obtain ⟨s, hmem, _⟩ := pickLeague_spec leagues sizes team (choose step) j lg hp
      have hj : leagues[j]? = some lg := (mem_availableEntries hmem).1
      have h1 := ih (step + 1) _ result h
      have h2 := flatten_set_append team leagues j lg hj
      refine h1.trans ?_
      refine (List.Perm.append_right rest h2).trans ?_
      rw [List.append_assoc]
      exact List.Perm.refl _

/-- The partition loop never grows a league past its configured size
when every league starts within bounds. -/
theorem divideAux_bound (sizes : List Int) (choose : Nat → Nat) :
    ∀ (rest : List Team) (step : Nat) (leagues result : List League),
      divideAux sizes choose rest step leagues = some result →
      (∀ i (hi : i < leagues.length) (hs : i < sizes.length),
        ((leagues.get ⟨i, hi⟩).teams.length : Int) ≤ sizes.get ⟨i, hs⟩) →
      ∀ i (hi : i < result.length) (hs : i < sizes.length),
        ((result.get ⟨i, hi⟩).teams.length : Int) ≤ sizes.get ⟨i, hs⟩ := by
  intro rest
  induction rest with
  | nil =>
    intro step leagues result h hinv
    simp only [divideAux] at h
    rw [← Option.some.inj h]
    exact hinv
  | cons team rest ih =>
    intro step leagues result h hinv
    simp only [divideAux] at h
    rcases hp : pickLeague leagues sizes team (choose step) with _ | jl
    · rw [hp] at h
      exact absurd h (by simp)
    · obtain ⟨j, lg⟩ := jl
      rw [hp] at h
      obtain ⟨s, hmem, _⟩ := pickLeague_spec leagues sizes team (choose step) j lg hp
      obtain ⟨hjl, hjs, hlt⟩ := mem_availableEntries hmem
      dsimp only at hjl hjs hlt
      obtain ⟨hj, hjget⟩ := List.getElem?_eq_some_iff.1 hjl
      obtain ⟨hjs', hsget⟩ := List.getElem?_eq_some_iff.1 hjs
      refine ih (step + 1) _ result h ?_
      intro i hi hs'
      have hi' : i < leagues.length := by
        rw [List.length_set] at hi
        exact hi
      by_cases hij : j = i
      · subst hij
        rw [List.get_set_eq]
        have hseq : sizes.get ⟨j, hs'⟩ = s := by
          rw [List.get_eq_getElem]
          exact hsget
        rw [hseq]
        have hlen : ({ lg with teams := lg.teams ++ [team] } : League).teams.length
            = lg.teams.length + 1 := by
          simp
        rw [hlen]
        push_cast
        omega
      · rw [List.get_set_ne hij]
        exact hinv i hi' hs'

/-- Appending one team to the league at a valid index raises the summed
integer lengths by one. -/
theorem sum_len_set (team : Team) :
    ∀ (leagues : List League) (j : Nat) (lg : League),
      leagues[j]? = some lg →
      ((leagues.set j { lg with teams := lg.teams ++ [team] }).map
          (fun l => (l.teams.length : Int))).sum =
        ((leagues.map (fun l => (l.teams.length : Int))).sum) + 1 := by
  intro leagues
  induction leagues with
  | nil =>
    intro j lg h
    simp at h
  | cons L ls ih =>
    intro j lg h
    cases j with
    | zero =>
      have hL : L = lg := by simpa using h
      subst hL
      simp only [List.set_cons_zero, List.map_cons, List.sum_cons]
      have hlen : ({ L with teams := L.teams ++ [team] } : League).teams.length
          = L.teams.length + 1 := by
        simp
      rw [hlen]
      push_cast
      ring
    | succ j =>
      have h' : ls[j]? = some lg := by simpa using h
      simp only [List.set_cons_succ, List.map_cons, List.sum_cons, ih j lg h']
      ring

/-- Sum comparison of two integer lists of one length from a pointwise
comparison. -/
theorem list_sum_le_pointwise :
    ∀ (a b : List Int), a.length = b.length →
      (∀ i (ha : i < a.length) (hb : i < b.length), a.get ⟨i, ha⟩ ≤ b.get ⟨i, hb⟩) →
      a.sum ≤ b.sum := by
  intro a
  induction a with
  | nil =>
    intro b hlen _
    cases b with
    | nil => simp
    | cons y ys => simp at hlen
  | cons x xs ih =>
    intro b hlen hle
    cases b with
    | nil => simp at hlen
    | cons y ys =>
      have h0 := hle 0 (by simp) (by simp)
      have ht := ih ys (by simpa using hlen)
        (fun i hi hi' => hle (i + 1) (by simpa using hi) (by simpa using hi'))
      simp only [List.sum_cons]
      have h0' : x ≤ y := h0
      omega

/-- Equal sums force pointwise equality on pointwise-compared integer
lists of one length. -/
theorem list_sum_eq_pointwise :
    ∀ (a b : List Int), a.length = b.length →
      (∀ i (ha : i < a.length) (hb : i < b.length), a.get ⟨i, ha⟩ ≤ b.get ⟨i, hb⟩) →
      a.sum = b.sum →
      ∀ i (ha : i < a.length) (hb : i < b.length), a.get ⟨i, ha⟩ = b.get ⟨i, hb⟩ := by
  intro a
  induction a with
  | nil =>
    intro b _ _ _ i hi _
    simp at hi
  | cons x xs ih =>
    intro b hlen hle hsum
    cases b with
    | nil => simp at hlen
    | cons y ys =>
      have hlen' : xs.length = ys.length := by simpa using hlen
      have hle' : ∀ i (hi : i < xs.length) (hi' : i < ys.length),
          xs.get ⟨i, hi⟩ ≤ ys.get ⟨i, hi'⟩ :=
        fun i hi hi' => hle (i + 1) (by simpa using hi) (by simpa using hi')
      have h0 : x ≤ y := hle 0 (by simp) (by simp)
      have htle : xs.sum ≤ ys.sum := list_sum_le_pointwise xs ys hlen' hle'
      have hsum' : x + xs.sum = y + ys.sum := by simpa [List.sum_cons] using hsum
      have hx : x = y := by omega
      have hxs : xs.sum = ys.sum := by omega
      intro i hi hi'
      cases i with
      | zero => exact hx
      | succ i =>
        exact ih ys hlen' hle' hxs i (by simpa using hi) (by simpa using hi')

/-- Under the capacity-sum bound the partition loop always succeeds:
whenever a team is still unplaced, some league is below its configured
size, so the availability scan cannot be empty. -/
theorem divideAux_isSome (sizes : List Int) (choose : Nat → Nat) :
    ∀ (rest : List Team) (step : Nat) (leagues : List League),
      leagues.length = sizes.length →
      ((leagues.map (fun l => (l.teams.length : Int))).sum + rest.length ≤ sizes.sum) →
      ∃ result, divideAux sizes choose rest step leagues = some result := by
  intro rest
  induction rest with
  | nil =>
    intro step leagues _ _
    exact ⟨leagues, rfl⟩
  | cons team rest ih =>
    intro step leagues hlen hsum
    rcases hp : pickLeague leagues sizes team (choose step) with _ | jl
    · exfalso
      have hempty := (pickLeague_none_iff leagues sizes team (choose step)).1 hp
      have hfull : ∀ i (hi : i < sizes.length)
          (hb : i < (leagues.map (fun l => (l.teams.length : Int))).length),
          sizes.get ⟨i, hi⟩ ≤ (leagues.map (fun l => (l.teams.length : Int))).get ⟨i, hb⟩ := by
        intro i hi hb
        have hi' : i < leagues.length := by simpa using hb
        by_contra hcon
        have hlt : ((leagues.get ⟨i, hi'⟩).teams.length : Int) < sizes.get ⟨i, hi⟩ := by
          have : (leagues.map (fun l => (l.teams.length : Int))).get ⟨i, hb⟩
              = ((leagues.get ⟨i, hi'⟩).teams.length : Int) := by
            simp
          omega
        have hmem := availableEntries_mem hi' hi hlt
        rw [hempty] at hmem
        exact absurd hmem (List.not_mem_nil _)
      have hlelen : sizes.length = (leagues.map (fun l => (l.teams.length : Int))).length := by
        simp [hlen]
      have := list_sum_le_pointwise sizes (leagues.map (fun l => (l.teams.length : Int)))
        hlelen hfull
      simp only [List.length_cons] at hsum
      push_cast at hsum
      omega
    · obtain ⟨j, lg⟩ := jl
      obtain ⟨s, hmem, _⟩ := pickLeague_spec leagues sizes team (choose step) j lg hp
      have hj : leagues[j]? = some lg := (mem_availableEntries hmem).1
      have hstep := sum_len_set team leagues j lg hj
      obtain ⟨result, hres⟩ := ih (step + 1)
        (leagues.set j { lg with teams := lg.teams ++ [team] })
        (by rw [List.length_set]; exact hlen)
        (by
          rw [hstep]
          simp only [List.length_cons] at hsum
          push_cast at hsum ⊢
          omega)
      refine ⟨result, ?_⟩
      simp only [divideAux]
      rw [hp]
      exact hres

/-- Claim C4 as stated is false for a size list holding a negative
entry: with the team list [pTeamA, pTeamB] and sizes [-1, 3], which sum
to the team count 2, the partitioner succeeds, yet the first returned
league holds 0 teams while its configured size is -1.  All hypotheses of
the claim hold at this input. -/
theorem claim_c4_counterexample :
    ([pTeamA, pTeamB] : List Team).Nodup ∧
    ([pTeamA, pTeamB] : List Team).Perm [pTeamA, pTeamB] ∧
    ([(-1 : Int), 3].sum = (([pTeamA, pTeamB] : List Team).length : Int)) ∧
    divide_into_leagues [pTeamA, pTeamB] [-1, 3] (fun _ => 0) =
      some [League.mk (leagueName 0) [] [],
        League.mk (leagueName 1) [pTeamA, pTeamB] []] ∧
    ¬ ((([League.mk (leagueName 0) [] [],
        League.mk (leagueName 1) [pTeamA, pTeamB] []].get
          ⟨0, by decide⟩).teams.length : Int) = [(-1 : Int), 3].get ⟨0, by decide⟩) :=
  ⟨by decide, List.Perm.refl _, by decide, by decide, by decide⟩

/-- Claim C4, amended with non-negative configured sizes (and the team
list read as a set, that is, duplicate-free, as the spec's contract
types it): when the sizes are non-negative and sum to the team count, a
successful partition places every team in exactly one league, exactly
once, and every returned league's team count equals its configured
size. -/
theorem claim_c4_partition_exact :
    ∀ (teams shuffled : List Team) (sizes : List Int) (choose : Nat → Nat)
      (result : List League),
      teams.Nodup →
      shuffled.Perm teams →
      (∀ s ∈ sizes, 0 ≤ s) →
      sizes.sum = (teams.length : Int) →
      divide_into_leagues shuffled sizes choose = some result →
      (∀ t ∈ teams, (result.map fun lg => lg.teams.count t).sum = 1) ∧
      result.length = sizes.length ∧
      (∀ i (hi : i < result.length) (hs : i < sizes.length),
        ((result.get ⟨i, hi⟩).teams.length : Int) = sizes.get ⟨i, hs⟩) := by
  intro teams shuffled sizes choose result hnd hperm hpos hsum h
  simp only [divide_into_leagues] at h
  have hinitlen : (sizes.enum.map fun p => League.mk (leagueName p.1) [] []).length
      = sizes.length := by
    simp
  have hinitflat : (((sizes.enum.map fun p => League.mk (leagueName p.1) [] []).map
      League.teams)).flatten = [] := by
    rw [List.flatten_eq_nil_iff]
    intro l hl
    obtain ⟨lg, hlg, rfl⟩ := List.mem_map.1 hl
    obtain ⟨p, _, rfl⟩ := List.mem_map.1 hlg
    rfl
  have hlen := divideAux_length sizes choose shuffled 0 _ result h
  have hflat := divideAux_flatten sizes choose shuffled 0 _ result h
  rw [hinitflat, List.nil_append] at hflat
  have hflat' := hflat.trans hperm
  have hreslen : result.length = sizes.length := hlen.trans hinitlen
  refine ⟨?_, hreslen, ?_⟩
  · intro t ht
    have hcount : ((result.map League.teams).flatten).count t = 1 := by
      rw [hflat'.count_eq]
      exact List.count_eq_one_of_mem hnd ht
    rw [List.count_flatten, List.map_map] at hcount
    exact hcount
  · have hble : ∀ i (hi : i < result.length) (hs : i < sizes.length),
        ((result.get ⟨i, hi⟩).teams.length : Int) ≤ sizes.get ⟨i, hs⟩ := by
      apply divideAux_bound sizes choose shuffled 0 _ result h
      intro i hi hs
      have hteams : ((sizes.enum.map fun p => League.mk (leagueName p.1) [] []).get
          ⟨i, hi⟩).teams = [] := by
        rw [List.get_eq_getElem, List.getElem_map]
      rw [hteams]
      simpa using hpos (sizes.get ⟨i, hs⟩) (List.get_mem sizes i hs)
    have hsum_eq : (result.map fun lg => (lg.teams.length : Int)).sum = sizes.sum := by
      have h1 : ((result.map League.teams).flatten).length = teams.length :=
        hflat'.length_eq
      have h2 : ((result.map League.teams).flatten).length
          = (result.map fun lg => lg.teams.length).sum := by
        rw [List.length_flatten, List.map_map]
        rfl
      have h3 : (result.map fun lg => (lg.teams.length : Int)).sum
          = (((result.map fun lg => lg.teams.length).sum : Nat) : Int) := by
        rw [Nat.cast_list_sum, List.map_map]
        rfl
      rw [h3, ← h2, h1, hsum]
    intro i hi hs
    have hmaplen : (result.map fun lg => (lg.teams.length : Int)).length = sizes.length := by
      rw [List.length_map]
      exact hreslen
    have hpoint := list_sum_eq_pointwise (result.map fun lg => (lg.teams.length : Int))
      sizes hmaplen
      (by
        intro k hk hk'
        have hk'' : k < result.length := by simpa using hk
        have hget : (result.map fun lg => (lg.teams.length : Int)).get ⟨k, hk⟩
            = ((result.get ⟨k, hk''⟩).teams.length : Int) := by
          simp
        rw [hget]
        exact hble k hk'' hk')
      hsum_eq i (by simpa using hi) hs
    have hget : (result.map fun lg => (lg.teams.length : Int)).get ⟨i, by simpa using hi⟩
        = ((result.get ⟨i, hi⟩).teams.length : Int) := by
      simp
    rw [hget] at hpoint
    exact hpoint

/-- Witness for claim C4: two teams, two leagues of size one. -/
theorem claim_c4_witness :
    ([pTeamA, pTeamB] : List Team).Nodup ∧
    (∀ s ∈ [(1 : Int), 1], 0 ≤ s) ∧
    ([(1 : Int), 1].sum = (([pTeamA, pTeamB] : List Team).length : Int)) ∧
    divide_into_leagues [pTeamA, pTeamB] [1, 1] (fun _ => 0) =
      some [League.mk (leagueName 0) [pTeamA] [],
        League.mk (leagueName 1) [pTeamB] []] ∧
    ((∀ t ∈ ([pTeamA, pTeamB] : List Team),
        (([League.mk (leagueName 0) [pTeamA] [],
          League.mk (leagueName 1) [pTeamB] []].map fun lg => lg.teams.count t).sum = 1)) ∧
      ([League.mk (leagueName 0) [pTeamA] [],
        League.mk (leagueName 1) [pTeamB] []] : List League).length
          = [(1 : Int), 1].length ∧
      (∀ i (hi : i < ([League.mk (leagueName 0) [pTeamA] [],
          League.mk (leagueName 1) [pTeamB] []] : List League).length)
          (hs : i < [(1 : Int), 1].length),
        ((([League.mk (leagueName 0) [pTeamA] [],
          League.mk (leagueName 1) [pTeamB] []].get ⟨i, hi⟩).teams.length : Int)
          = [(1 : Int), 1].get ⟨i, hs⟩))) :=
  ⟨by decide, by decide, by decide, by decide,
   claim_c4_partition_exact [pTeamA, pTeamB] [pTeamA, pTeamB] [1, 1] (fun _ => 0)
     [League.mk (leagueName 0) [pTeamA] [], League.mk (leagueName 1) [pTeamB] []]
     (by decide) (List.Perm.refl _) (by decide) (by decide) (by decide)⟩

/-- Claim C7: one placement step of the partitioner chooses an
available, not-yet-full league whose count of already placed same-region
teams is minimal among the available leagues: no full league, and no
available league with a strictly larger same-region count, is ever
chosen. -/
theorem claim_c7_minimal_choice :
    ∀ (leagues : List League) (sizes : List Int) (team : Team) (c : Nat)
      (j : Nat) (lg : League),
      pickLeague leagues sizes team c = some (j, lg) →
      ∃ (hj : j < leagues.length) (hs : j < sizes.length),
        leagues.get ⟨j, hj⟩ = lg ∧
        ((lg.teams.length : Int) < sizes.get ⟨j, hs⟩) ∧
        ∀ i (hi : i < leagues.length) (hs' : i < sizes.length),
          ((leagues.get ⟨i, hi⟩).teams.length : Int) < sizes.get ⟨i, hs'⟩ →
          regionCount lg team.region ≤ regionCount (leagues.get ⟨i, hi⟩) team.region := by
  intro leagues sizes team c j lg hp
  obtain ⟨s, hmem, hmin⟩ := pickLeague_spec leagues sizes team c j lg hp
  obtain ⟨hjl, hjs, hlt⟩ := mem_availableEntries hmem
  dsimp only at hjl hjs hlt
  obtain ⟨hj, hjget⟩ := List.getElem?_eq_some_iff.1 hjl
  obtain ⟨hs, hsget⟩ := List.getElem?_eq_some_iff.1 hjs
  refine ⟨hj, hs, ?_, ?_, ?_⟩
  · rw [List.get_eq_getElem]
    exact hjget
  · rw [List.get_eq_getElem, hsget]
    exact hlt
  · intro i hi hs' hlt'
    have hmemi := availableEntries_mem hi hs' hlt'
    have hle := hmin _ hmemi
    simpa using hle

/-- Witness for claim C7: two empty leagues of capacity one; the first
is chosen. -/
theorem claim_c7_witness :
    pickLeague [pLeagueX, pLeagueY] [1, 1] pTeamA 0 = some (0, pLeagueX) ∧
    ∃ (hj : (0 : Nat) < ([pLeagueX, pLeagueY] : List League).length)
      (hs : (0 : Nat) < ([(1 : Int), 1] : List Int).length),
      ([pLeagueX, pLeagueY] : List League).get ⟨0, hj⟩ = pLeagueX ∧
      ((pLeagueX.teams.length : Int) < ([(1 : Int), 1] : List Int).get ⟨0, hs⟩) ∧
      ∀ i (hi : i < ([pLeagueX, pLeagueY] : List League).length)
        (hs' : i < ([(1 : Int), 1] : List Int).length),
        ((([pLeagueX, pLeagueY] : List League).get ⟨i, hi⟩).teams.length : Int)
            < ([(1 : Int), 1] : List Int).get ⟨i, hs'⟩ →
        regionCount pLeagueX pTeamA.region ≤
          regionCount (([pLeagueX, pLeagueY] : List League).get ⟨i, hi⟩) pTeamA.region :=
  ⟨by decide, claim_c7_minimal_choice [pLeagueX, pLeagueY] [1, 1] pTeamA 0 0 pLeagueX
    (by decide)⟩

/-- Claim C8: the partitioner fails only in the state where no league
below its configured size remains (characterised through the placement
step), and under the precondition that the sizes sum to the team count
the partition always succeeds. -/
theorem claim_c8_no_failure :
    ∀ (teams shuffled : List Team) (sizes : List Int) (choose : Nat → Nat),
      shuffled.Perm teams →
      sizes.sum = (teams.length : Int) →
      (∃ result, divide_into_leagues shuffled sizes choose = some result) ∧
      (∀ (leagues : List League) (team : Team) (c : Nat),
        pickLeague leagues sizes team c = none ↔
          ∀ i (hi : i < leagues.length) (hs : i < sizes.length),
            sizes.get ⟨i, hs⟩ ≤ ((leagues.get ⟨i, hi⟩).teams.length : Int)) := by
  intro teams shuffled sizes choose hperm hsum
  constructor
  · simp only [divide_into_leagues]
    apply divideAux_isSome
    · simp
    · have hi0 : ((sizes.enum.map fun p => League.mk (leagueName p.1) [] []).map
          (fun l => (l.teams.length : Int))).sum = 0 := by
        apply List.sum_eq_zero
        intro x hx
        obtain ⟨lg, hlg, rfl⟩ := List.mem_map.1 hx
        obtain ⟨p, _, rfl⟩ := List.mem_map.1 hlg
        rfl
      rw [hi0, hperm.length_eq, hsum]
      omega
  · intro leagues team c
    rw [pickLeague_none_iff]
    constructor
    · intro hempty i hi hs
      by_contra hcon
      have hlt : ((leagues.get ⟨i, hi⟩).teams.length : Int) < sizes.get ⟨i, hs⟩ := by
        omega
      have hmem := availableEntries_mem hi hs hlt
      rw [hempty] at hmem
      exact absurd hmem (List.not_mem_nil _)
    · intro hfull
      rcases hae : availableEntries leagues sizes with _ | ⟨q, qs⟩
      · rfl
      · exfalso
        have hq : q ∈ availableEntries leagues sizes := by
          rw [hae]
          exact List.mem_cons_self q qs
        obtain ⟨hql, hqs, hqlt⟩ := mem_availableEntries hq
        obtain ⟨hi, higet⟩ := List.getElem?_eq_some_iff.1 hql
        obtain ⟨hs, hsget⟩ := List.getElem?_eq_some_iff.1 hqs
        have hge := hfull q.1 hi hs
        rw [List.get_eq_getElem, List.get_eq_getElem, higet, hsget] at hge
        omega

/-- Witness for claim C8: one team, one league of size one. -/
theorem claim_c8_witness :
    ([pTeamA] : List Team).Perm [pTeamA] ∧
    ([(1 : Int)].sum = (([pTeamA] : List Team).length : Int)) ∧
    (∃ result, divide_into_leagues [pTeamA] [(1 : Int)] (fun _ => 0) = some result) ∧
    (pickLeague [] [(1 : Int)] pTeamA 0 = none ↔
      ∀ i (hi : i < ([] : List League).length) (hs : i < [(1 : Int)].length),
        [(1 : Int)].get ⟨i, hs⟩ ≤ ((([] : List League).get ⟨i, hi⟩).teams.length : Int)) :=
  ⟨List.Perm.refl _, by decide,
   (claim_c8_no_failure [pTeamA] [pTeamA] [(1 : Int)] (fun _ => 0)
     (List.Perm.refl _) (by decide)).1,
   (claim_c8_no_failure [pTeamA] [pTeamA] [(1 : Int)] (fun _ => 0)
     (List.Perm.refl _) (by decide)).2 [] pTeamA 0⟩

end MiracleMatcher
